import Mathlib

/-!
# A verification model of the `find` command

This file is a shallow embedding, in Lean, of the `find` command of the
just-bash repository (glob matcher, predicate-expression model and
evaluator, argument tokenizer and expression builder, `-newer` reference
resolver, depth-bounded recursive traversal, and the post-traversal action
phase), together with theorems settling the specification's claims about it.

Modelling conventions:
* JavaScript strings are modelled by `String`, and the index-based
  operations the source uses (`length`, `slice`, `split`, `startsWith`)
  are modelled over the character list `String.toList`.  JS indexes
  UTF-16 units; the two coincide on the ASCII strings the command
  manipulates.
* The glob matcher builds a JS `RegExp`; a pattern whose translation is an
  invalid regular expression (an unterminated or malformed character
  class) makes the `RegExp` constructor throw.  This is modelled by
  `Option`: `none` is the thrown exception, which then propagates through
  expression evaluation and aborts the traversal.
* Loops whose index moves by a variable amount per iteration are modelled
  with an explicit fuel argument that decreases by one per iteration.
  Since every iteration also consumes at least one list element, fuel
  equal to the list length always suffices and the out-of-fuel branch is
  unreachable for the wrappers that supply it.
* File-system capabilities (path resolution, stat, readdir, rm, external
  command execution) are host-provided in the source and are modelled as
  function parameters (oracles).
-/

namespace FindSpec

/-! ## JavaScript string primitives -/

/-- JS `s.length` (UTF-16 units; equals the character count on ASCII). -/
def jsLength (s : String) : Nat := s.toList.length

/-- JS `s.slice(n)` for a non-negative `n` (empty when `n` is past the end). -/
def jsDrop (s : String) (n : Nat) : String := String.mk (s.toList.drop n)

/-- JS `s.startsWith(c)` for a one-character prefix. -/
def jsStartsWith (s : String) (c : Char) : Bool :=
  match s.toList with
  | [] => false
  | d :: _ => d = c

/-- Worker for `jsSplitSlash`: `acc` holds the characters of the current
segment, in order. -/
def splitSlashAux : List Char → List Char → List String
  | [], acc => [String.mk acc]
  | c :: rest, acc =>
      if c = '/' then String.mk acc :: splitSlashAux rest []
      else splitSlashAux rest (acc ++ [c])

/-- JS `s.split("/")`: `"" ↦ [""]`, `"/" ↦ ["", ""]`, `"a/b" ↦ ["a", "b"]`. -/
def jsSplitSlash (s : String) : List String := splitSlashAux s.toList []

/-! ## Glob matcher (`matchGlob`)

The source translates the glob pattern character by character into a regex
string (`*` to `.*`, `?` to `.`, a `[` class copied verbatim up to the
first `]` found by forward scan, regex metacharacters escaped, everything
else copied literally), anchors it with `^...$`, and matches with
`new RegExp(regex, ignoreCase ? "i" : "")`.  We translate the same scan
directly into a list of matcher items; the verbatim-copied class is parsed
the way the regex engine would parse it, and the translation fails
(`none`, the constructor throwing a `SyntaxError`) exactly when the copied
class has no closing `]` or contains an out-of-order range. -/

/-- One member of a regex character class: a single character or a range. -/
inductive ClassElem where
  | single (c : Char)
  | range (lo hi : Char)
deriving DecidableEq, Repr

/-- A regex character class: optional leading `^` negation plus members. -/
structure GlobClass where
  negated : Bool
  elems : List ClassElem
deriving DecidableEq, Repr

/-- One item of the translated pattern: `.*`, `.`, a character class, or a
literal character (the source escapes regex metacharacters, so both the
escaped and the plain branch denote a literal character match). -/
inductive GlobItem where
  | star
  | anyChar
  | cls (c : GlobClass)
  | lit (c : Char)
deriving DecidableEq, Repr

/-- Parse the members of a character class body (which contains no `]`,
by construction of the forward scan).  A backslash escapes the next
character; `c-d` is a range, which the regex engine rejects when out of
order (`none`); a leading or trailing `-` is a literal. -/
def parseClassElems : List Char → Option (List ClassElem)
  | [] => some []
  | '\\' :: c :: rest => (parseClassElems rest).map (fun es => .single c :: es)
  | ['\\'] => none
  | c :: '-' :: d :: rest =>
      if c ≤ d then (parseClassElems rest).map (fun es => .range c d :: es)
      else none
  | c :: rest => (parseClassElems rest).map (fun es => .single c :: es)

/-- Parse a character class body, with its optional leading `^`. -/
def parseClass (content : List Char) : Option GlobClass :=
  match content with
  | '^' :: rest => (parseClassElems rest).map (fun es => ⟨true, es⟩)
  | _ => (parseClassElems content).map (fun es => ⟨false, es⟩)

/-- The translation loop of `matchGlob`, over the pattern's characters.
`none` models the `RegExp` constructor throwing on the translated pattern.
Fuel decreases by one per step and at least one character is consumed per
step, so `length + 1` fuel always suffices. -/
def compileGlobF : Nat → List Char → Option (List GlobItem)
  | 0, _ => none
  | _n+1, [] => some []
  | n+1, c :: rest =>
      if c = '*' then (compileGlobF n rest).map (fun is => .star :: is)
      else if c = '?' then (compileGlobF n rest).map (fun is => .anyChar :: is)
      else if c = '[' then
        let content := rest.takeWhile (fun d => d ≠ ']')
        match rest.dropWhile (fun d => d ≠ ']') with
        | [] => none
        | _ :: rem =>
            match parseClass content with
            | none => none
            | some gc => (compileGlobF n rem).map (fun is => .cls gc :: is)
      else (compileGlobF n rest).map (fun is => .lit c :: is)

/-- Translate a glob pattern; `none` when the produced regex is invalid. -/
def compileGlob (pattern : String) : Option (List GlobItem) :=
  compileGlobF (pattern.toList.length + 1) pattern.toList

/-- Character comparison under the regex `i` flag (simple case folding;
modelled by `toLower`, which agrees on ASCII). -/
def charEq (ignoreCase : Bool) (a b : Char) : Bool :=
  if ignoreCase then a.toLower = b.toLower else a = b

/-- Does character `d` match one class member? -/
def classElemMatch (ignoreCase : Bool) (d : Char) : ClassElem → Bool
  | .single c => charEq ignoreCase c d
  | .range lo hi =>
      (lo ≤ d && d ≤ hi) ||
        (ignoreCase &&
          ((lo ≤ d.toLower && d.toLower ≤ hi) || (lo ≤ d.toUpper && d.toUpper ≤ hi)))

/-- Does character `d` match a character class? -/
def classMatch (ignoreCase : Bool) (gc : GlobClass) (d : Char) : Bool :=
  let inside := gc.elems.any (classElemMatch ignoreCase d)
  if gc.negated then !inside else inside

/-- Anchored matching of a translated pattern against a name.  Each step
shrinks `items.length + s.length`, so that sum plus one is enough fuel. -/
def globMatchF : Nat → List GlobItem → List Char → Bool → Bool
  | 0, _, _, _ => false
  | _n+1, [], [], _ => true
  | _n+1, [], _ :: _, _ => false
  | n+1, .star :: items, s, ic =>
      globMatchF n items s ic ||
        (match s with
         | [] => false
         | _ :: rest => globMatchF n (.star :: items) rest ic)
  | n+1, .anyChar :: items, s, ic =>
      (match s with
       | [] => false
       | _ :: rest => globMatchF n items rest ic)
  | n+1, .lit c :: items, s, ic =>
      (match s with
       | [] => false
       | d :: rest => charEq ic c d && globMatchF n items rest ic)
  | n+1, .cls gc :: items, s, ic =>
      (match s with
       | [] => false
       | d :: rest => classMatch ic gc d && globMatchF n items rest ic)

/-- `matchGlob(name, pattern, ignoreCase)` of the source.  `none` models
the `RegExp` constructor throwing on an invalid translated pattern. -/
def matchGlob (name pattern : String) (ignoreCase : Bool) : Option Bool :=
  (compileGlob pattern).map
    (fun items => globMatchF (items.length + name.toList.length + 1) items name.toList ignoreCase)

/-! ## Expression model and evaluator -/

/-- `-type` argument: regular file or directory. -/
inductive FType where
  | f
  | d
deriving DecidableEq, Repr

/-- Comparison mode of `-mtime`/`-size`: bare value, `+` prefix, `-` prefix. -/
inductive Comparison where
  | exact
  | more
  | less
deriving DecidableEq, Repr

/-- Size unit suffix of `-size` (`b`, 512-byte blocks, is the default). -/
inductive SizeUnit where
  | c
  | k
  | M
  | G
  | b
deriving DecidableEq, Repr

/-- The tagged-union expression tree of the source. -/
inductive Expression where
  | name (pattern : String) (ignoreCase : Bool)
  | path (pattern : String) (ignoreCase : Bool)
  | type (fileType : FType)
  | empty
  | mtime (days : Int) (comparison : Comparison)
  | newer (refPath : String)
  | size (value : Nat) (unit : SizeUnit) (comparison : Comparison)
  | not (expr : Expression)
  | and (left right : Expression)
  | or (left right : Expression)
deriving DecidableEq, Repr

/-- The per-node evaluation context (`EvalContext` of the source); the
`Map` of `-newer` reference times is modelled by its lookup function. -/
structure EvalContext where
  name : String
  relativePath : String
  isFile : Bool
  isDirectory : Bool
  isEmpty : Bool
  mtime : Int
  size : Nat
  newerRefTimes : String → Option Int

/-- Milliseconds per day, the divisor in the `-mtime` age computation. -/
def msPerDay : Int := 86400000

/-- The `-size` exact comparison: for the block unit the file's size is
rounded up to whole 512-byte blocks and compared against the value; for
any other unit the byte sizes are compared directly. -/
def sizeExactMatch (u : SizeUnit) (size v targetBytes : Nat) : Bool :=
  match u with
  | .b => decide ((size + 511) / 512 = v)
  | .c => decide (size = targetBytes)
  | .k => decide (size = targetBytes)
  | .M => decide (size = targetBytes)
  | .G => decide (size = targetBytes)

/-- `evaluateExpression` of the source.  `none` models an exception thrown
by the glob matcher propagating out of evaluation; `&&`/`||` short-circuit
exactly as in JS.  The `-mtime` float arithmetic
(`(now - mtime) / 86400000`, compared or floored) is stated in exact
integer form, which agrees with it on integer timestamps below `2^53`. -/
def evaluateExpression (now : Int) : Expression → EvalContext → Option Bool
  | .name pat ic, ctx => matchGlob ctx.name pat ic
  | .path pat ic, ctx => matchGlob ctx.relativePath pat ic
  | .type ft, ctx =>
      some (match ft with
        | .f => ctx.isFile
        | .d => ctx.isDirectory)
  | .empty, ctx => some ctx.isEmpty
  | .mtime days cmp, ctx =>
      some (match cmp with
        | .more => decide (days * msPerDay < now - ctx.mtime)
        | .less => decide (now - ctx.mtime < days * msPerDay)
        | .exact => decide (Int.fdiv (now - ctx.mtime) msPerDay = days))
  | .newer ref, ctx =>
      some (match ctx.newerRefTimes ref with
        | none => false
        | some t => decide (t < ctx.mtime))
  | .size v u cmp, ctx =>
      let targetBytes : Nat :=
        match u with
        | .c => v
        | .k => v * 1024
        | .M => v * 1024 * 1024
        | .G => v * 1024 * 1024 * 1024
        | .b => v * 512
      some (match cmp with
        | .more => decide (targetBytes < ctx.size)
        | .less => decide (ctx.size < targetBytes)
        | .exact => sizeExactMatch u ctx.size v targetBytes)
  | .not e, ctx => (evaluateExpression now e ctx).map (fun b => !b)
  | .and l r, ctx =>
      match evaluateExpression now l ctx with
      | none => none
      | some false => some false
      | some true => evaluateExpression now r ctx
  | .or l r, ctx =>
      match evaluateExpression now l ctx with
      | none => none
      | some true => some true
      | some false => evaluateExpression now r ctx

/-- Every glob pattern inside the expression translates to a valid regex
(so its evaluation never throws). -/
def exprGlobsCompile : Expression → Bool
  | .name pat _ => (compileGlob pat).isSome
  | .path pat _ => (compileGlob pat).isSome
  | .not e => exprGlobsCompile e
  | .and l r => exprGlobsCompile l && exprGlobsCompile r
  | .or l r => exprGlobsCompile l && exprGlobsCompile r
  | _ => true

/-- `exprGlobsCompile` lifted to the optional expression of an invocation. -/
def exprOptCompiles : Option Expression → Bool
  | none => true
  | some e => exprGlobsCompile e

/-! ## Argument tokenizer and expression builder (`parseExpressions`) -/

/-- A token of the first scan: a predicate expression, a binary operator,
or a standalone negation marker. -/
inductive OpKind where
  | andOp
  | orOp
deriving DecidableEq, Repr

/-- Tokens produced by the scanning loop of `parseExpressions`. -/
inductive Token where
  | expr (e : Expression)
  | op (o : OpKind)
  | notMark
deriving DecidableEq, Repr

/-- Actions registered by the scanning loop. -/
inductive FindAction where
  | exec (command : List String) (batchMode : Bool)
  | print
  | print0
  | delete
deriving DecidableEq, Repr

/-- Is `c` one of the whitespace characters JS `parseInt` skips (ASCII
portion; the Unicode space characters never occur in these arguments). -/
def isJsSpace (c : Char) : Bool :=
  c = ' ' || c = '\t' || c = '\n' || c = '\r' || c = '\x0b' || c = '\x0c'

/-- Numeric value of a digit string. -/
def digitsToNat (ds : List Char) : Nat :=
  ds.foldl (fun n c => n * 10 + (c.toNat - '0'.toNat)) 0

/-- The digit part of JS `parseInt(s, 10)`: longest leading digit run,
`NaN` (`none`) when it is empty. -/
def jsParseIntCore (cs : List Char) : Option Int :=
  let ds := cs.takeWhile Char.isDigit
  if ds.isEmpty then none else some (digitsToNat ds : Int)

/-- JS `parseInt(s, 10)`: skip leading whitespace, optional sign, longest
leading digit run; `none` models `NaN`. -/
def jsParseInt (s : String) : Option Int :=
  match s.toList.dropWhile isJsSpace with
  | '+' :: rest => jsParseIntCore rest
  | '-' :: rest => (jsParseIntCore rest).map (fun n => -n)
  | rest => jsParseIntCore rest

/-- The `+`/`-` prefix handling shared by `-mtime` and `-size`: strip an
optional sign into a comparison mode and the remaining body. -/
def stripSign (s : String) : Comparison × String :=
  if jsStartsWith s '+' then (.more, jsDrop s 1)
  else if jsStartsWith s '-' then (.less, jsDrop s 1)
  else (.exact, s)

/-- The `-size` body regex `/^(\d+)([ckMGb])?$/`: all digits, then an
optional one-character unit suffix, anchored at both ends. -/
def parseSizeBody (s : String) : Option (Nat × SizeUnit) :=
  let cs := s.toList
  let ds := cs.takeWhile Char.isDigit
  match ds, cs.dropWhile Char.isDigit with
  | [], _ => none
  | _ :: _, [] => some (digitsToNat ds, .b)
  | _ :: _, [u] =>
      if u = 'c' then some (digitsToNat ds, .c)
      else if u = 'k' then some (digitsToNat ds, .k)
      else if u = 'M' then some (digitsToNat ds, .M)
      else if u = 'G' then some (digitsToNat ds, .G)
      else if u = 'b' then some (digitsToNat ds, .b)
      else none
  | _ :: _, _ :: _ :: _ => none

/-- The `-mtime` step on the token list: parse the (sign-stripped) value;
a `NaN` body emits no token at all. -/
def pushMtime (toks : List Token) (v : String) : List Token :=
  let sc := stripSign v
  match jsParseInt sc.2 with
  | some days => toks ++ [.expr (.mtime days sc.1)]
  | none => toks

/-- The `-size` step on the token list: parse the (sign-stripped) value
against the size regex; a non-matching body emits no token at all. -/
def pushSize (toks : List Token) (v : String) : List Token :=
  let sc := stripSign v
  match parseSizeBody sc.2 with
  | some (n, u) => toks ++ [.expr (.size n u sc.1)]
  | none => toks

/-- The inner `-exec` scan: arguments before the first `;` or `+`, and the
rest of the list starting at that terminator (empty when none is found). -/
def takeUntilTerm : List String → List String × List String
  | [] => ([], [])
  | a :: rest =>
      if a = ";" || a = "+" then ([], a :: rest)
      else
        let pr := takeUntilTerm rest
        (a :: pr.1, pr.2)

/-- The scanning loop of `parseExpressions`, translated case for case from
the source's `while` loop (fuel decreases once per iteration; every
iteration consumes at least one argument, so `args.length` fuel always
suffices and the fuel-out branch is unreachable from `parseExpressions`).
A known predicate missing its value argument falls through to the unknown
predicate error, exactly as the guarded `else if` chain does;
`-maxdepth`/`-mindepth` and their values are skipped here; a bare
(non-flag) argument is skipped while no token exists and stops the scan
otherwise. -/
def parseLoopF : Nat → List String → List Token → List FindAction →
    Except String (List Token × List FindAction)
  | 0, _, toks, acts => .ok (toks, acts)
  | _n+1, [], toks, acts => .ok (toks, acts)
  | n+1, "-name" :: v :: rest, toks, acts =>
      parseLoopF n rest (toks ++ [.expr (.name v false)]) acts
  | n+1, "-iname" :: v :: rest, toks, acts =>
      parseLoopF n rest (toks ++ [.expr (.name v true)]) acts
  | n+1, "-path" :: v :: rest, toks, acts =>
      parseLoopF n rest (toks ++ [.expr (.path v false)]) acts
  | n+1, "-ipath" :: v :: rest, toks, acts =>
      parseLoopF n rest (toks ++ [.expr (.path v true)]) acts
  | n+1, "-type" :: v :: rest, toks, acts =>
      if v = "f" then parseLoopF n rest (toks ++ [.expr (.type .f)]) acts
      else if v = "d" then parseLoopF n rest (toks ++ [.expr (.type .d)]) acts
      else .error ("find: Unknown argument to -type: " ++ v ++ "\n")
  | n+1, "-empty" :: rest, toks, acts =>
      parseLoopF n rest (toks ++ [.expr .empty]) acts
  | n+1, "-mtime" :: v :: rest, toks, acts =>
      parseLoopF n rest (pushMtime toks v) acts
  | n+1, "-newer" :: v :: rest, toks, acts =>
      parseLoopF n rest (toks ++ [.expr (.newer v)]) acts
  | n+1, "-size" :: v :: rest, toks, acts =>
      parseLoopF n rest (pushSize toks v) acts
  | n+1, "-not" :: rest, toks, acts => parseLoopF n rest (toks ++ [.notMark]) acts
  | n+1, "!" :: rest, toks, acts => parseLoopF n rest (toks ++ [.notMark]) acts
  | n+1, "-o" :: rest, toks, acts => parseLoopF n rest (toks ++ [.op .orOp]) acts
  | n+1, "-or" :: rest, toks, acts => parseLoopF n rest (toks ++ [.op .orOp]) acts
  | n+1, "-a" :: rest, toks, acts => parseLoopF n rest (toks ++ [.op .andOp]) acts
  | n+1, "-and" :: rest, toks, acts => parseLoopF n rest (toks ++ [.op .andOp]) acts
  | n+1, "-maxdepth" :: _v :: rest, toks, acts => parseLoopF n rest toks acts
  | n+1, ["-maxdepth"], toks, acts => parseLoopF n [] toks acts
  | n+1, "-mindepth" :: _v :: rest, toks, acts => parseLoopF n rest toks acts
  | n+1, ["-mindepth"], toks, acts => parseLoopF n [] toks acts
  | n+1, "-exec" :: rest, toks, acts =>
      (match takeUntilTerm rest with
       | (parts, t :: rem) => parseLoopF n rem toks (acts ++ [.exec parts (t = "+")])
       | (_parts, []) => .error "find: missing argument to `-exec'\n")
  | n+1, "-print" :: rest, toks, acts => parseLoopF n rest toks (acts ++ [.print])
  | n+1, "-print0" :: rest, toks, acts => parseLoopF n rest toks (acts ++ [.print0])
  | n+1, "-delete" :: rest, toks, acts => parseLoopF n rest toks (acts ++ [.delete])
  | n+1, arg :: rest, toks, acts =>
      if jsStartsWith arg '-' then
        .error ("find: unknown predicate '" ++ arg ++ "'\n")
      else
        match toks with
        | [] => parseLoopF n rest [] acts
        | _ :: _ => .ok (toks, acts)

/-- Fold each standalone negation marker into the immediately following
expression token; a marker not followed by an expression token is dropped
(and its successor is not skipped). -/
def foldNots : List Token → List Token
  | [] => []
  | .notMark :: .expr e :: rest => .expr (.not e) :: foldNots rest
  | .notMark :: rest => foldNots rest
  | t :: rest => t :: foldNots rest

/-- Split the processed token sequence into disjunction groups at each
`-o` marker, dropping explicit `-a` markers (identical to implicit
adjacency).  Computes the same groups as the source's forward loop that
appends to the last group. -/
def splitOrGroups : List Token → List (List Expression)
  | [] => [[]]
  | .op .orOp :: rest => [] :: splitOrGroups rest
  | .op .andOp :: rest => splitOrGroups rest
  | .notMark :: rest => splitOrGroups rest
  | .expr e :: rest =>
      match splitOrGroups rest with
      | [] => [[e]]
      | g :: gs => (e :: g) :: gs

/-- Left-fold one disjunction group into a conjunction chain; an empty
group is skipped (`none`). -/
def combineAnd : List Expression → Option Expression
  | [] => none
  | e :: rest => some (rest.foldl (fun acc r => .and acc r) e)

/-- Build the expression tree from the token list: fold negations, group
by `-o`, left-fold each group with `and`, left-fold the groups with `or`. -/
def buildExprTree (toks : List Token) : Option Expression :=
  let groups := splitOrGroups (foldNots toks)
  match groups.filterMap combineAnd with
  | [] => none
  | a :: rest => some (rest.foldl (fun acc r => .or acc r) a)

/-- Result of `parseExpressions` (the unused `pathIndex` is omitted). -/
structure ParseResult where
  expr : Option Expression
  error : Option String
  actions : List FindAction
deriving DecidableEq, Repr

/-- `parseExpressions(args, 0)` of the source. -/
def parseExpressions (args : List String) : ParseResult :=
  match parseLoopF args.length args [] [] with
  | .error e => ⟨none, some e, []⟩
  | .ok (toks, acts) =>
      match toks with
      | [] => ⟨none, none, acts⟩
      | _ :: _ => ⟨buildExprTree toks, none, acts⟩

/-! ## `-newer` reference resolution (`resolveNewerRefs`) -/

/-- `resolveNewerRefs` of the source: walk the expression tree and, for
each `newer` node whose reference path resolves and stats successfully,
record its modification time under the reference path string; a failing
stat records nothing (the predicate will evaluate to false, not error).
`resolve` is the partially applied host path resolution against the
working directory, `statMtime` the stat-then-mtime oracle, and the `Map`
is modelled by its lookup function (`Map.set` is a function update). -/
def resolveNewerRefs (resolve : String → String) (statMtime : String → Option Int) :
    Expression → (String → Option Int) → (String → Option Int)
  | .newer refPath, m =>
      (match statMtime (resolve refPath) with
       | some t => fun x => if x = refPath then some t else m x
       | none => m)
  | .not e, m => resolveNewerRefs resolve statMtime e m
  | .and l r, m => resolveNewerRefs resolve statMtime r (resolveNewerRefs resolve statMtime l m)
  | .or l r, m => resolveNewerRefs resolve statMtime r (resolveNewerRefs resolve statMtime l m)
  | _, m => m

/-! ## Traversal engine (`findRecursive`) -/

/-- The stat result the traversal consumes: kind flags, byte size,
modification time. -/
structure FStat where
  isFile : Bool
  isDirectory : Bool
  size : Nat
  mtime : Int
deriving DecidableEq, Repr

/-- Everything `findRecursive` closes over.  `maxDepth`/`minDepth` are
`none` when the flag is absent and `some none` when its value parsed to
`NaN` (a `NaN` bound is never exceeded and never reached, as in JS). -/
structure TravConfig where
  searchPath : String
  basePath : String
  maxDepth : Option (Option Int)
  minDepth : Option (Option Int)
  expr : Option Expression
  refTimes : String → Option Int
  now : Int
  stat : String → Option FStat
  readdir : String → List String

/-- The traversal state: the collected match list, the log of paths on
which `stat` was invoked (the visited nodes), and whether an exception has
been thrown (which aborts all remaining work, as in JS). -/
structure TravResult where
  results : List String
  visited : List String
  threw : Bool
deriving DecidableEq, Repr

/-- `maxDepth !== null && depth > maxDepth` (false on a `NaN` bound). -/
def maxDepthExceeded (maxDepth : Option (Option Int)) (depth : Nat) : Bool :=
  match maxDepth with
  | some (some m) => decide (m < (depth : Int))
  | some none => false
  | none => false

/-- `minDepth === null || depth >= minDepth` (false on a `NaN` bound). -/
def minDepthOk (minDepth : Option (Option Int)) (depth : Nat) : Bool :=
  match minDepth with
  | none => true
  | some none => false
  | some (some k) => decide (k ≤ (depth : Int))

/-- JS `s.split("/").pop() || dflt`: the last `/`-separated segment, with
the given fallback when that segment is the (falsy) empty string. -/
def lastSegmentOr (s dflt : String) : String :=
  match (jsSplitSlash s).getLast? with
  | none => dflt
  | some seg => if seg = "" then dflt else seg

/-- The display name of a visited node: for the base path itself, the last
segment of the user-supplied search path (falling back to the search path
when empty); otherwise the last segment of the current path (falling back
to the empty string). -/
def nodeName (searchPath basePath p : String) : String :=
  if p = basePath then lastSegmentOr searchPath searchPath
  else lastSegmentOr p ""

/-- The reported relative path of a visited node: the search path itself
for the base node; otherwise `./` plus the suffix past the base for a `.`
search path, or the search path plus the suffix past the base. -/
def nodeRel (searchPath basePath p : String) : String :=
  if p = basePath then searchPath
  else if searchPath = "." then "./" ++ jsDrop p (jsLength basePath + 1)
  else searchPath ++ jsDrop p (jsLength basePath)

/-- Child path construction of the traversal loop. -/
def childPath (p entry : String) : String :=
  if p = "/" then "/" ++ entry else p ++ "/" ++ entry

/-- Emptiness of a visited node: zero size for a file, zero directory
entries for a directory, false otherwise. -/
def computeEmpty (rd : String → List String) (p : String) (st : FStat) : Bool :=
  if st.isFile then decide (st.size = 0)
  else if st.isDirectory then decide ((rd p).length = 0)
  else false

/-- The evaluation context built for one visited node. -/
def mkEvalCtx (cfg : TravConfig) (p : String) (st : FStat) : EvalContext :=
  ⟨nodeName cfg.searchPath cfg.basePath p, nodeRel cfg.searchPath cfg.basePath p,
   st.isFile, st.isDirectory, computeEmpty cfg.readdir p st, st.mtime, st.size,
   cfg.refTimes⟩

/-- The matching decision for one visited node:
`matches = atOrBeyondMinDepth && (expr === null || evaluate(expr))`, with
the evaluator consulted only when the depth qualifies (JS `&&`), and
`none` when the evaluation throws. -/
def evalNode (cfg : TravConfig) (p : String) (st : FStat) (depth : Nat) : Option Bool :=
  if minDepthOk cfg.minDepth depth then
    match cfg.expr with
    | none => some true
    | some e => evaluateExpression cfg.now e (mkEvalCtx cfg p st)
  else some false

/-- `findRecursive` of the source, with an explicit visit log.  Per node:
prune when the depth exceeds `maxDepth`; stat (logging the attempt; a
failed stat silently abandons the branch); decide matching (below
`minDepth` nothing matches and the expression is not evaluated); append
the relative path on a match; recurse into directory entries in listing
order at depth + 1.  A thrown evaluation exception (`threw`) stops every
remaining step, as in JS.  Fuel decreases by one per nesting level; any
fuel at least the tree height suffices, and statements quantified over
fuel hold for every fuel. -/
def findRec (cfg : TravConfig) : Nat → String → Nat → TravResult → TravResult
  | 0, _, _, st => st
  | fuel+1, p, depth, st =>
      if st.threw then st
      else if maxDepthExceeded cfg.maxDepth depth then st
      else
        let st1 : TravResult := ⟨st.results, st.visited ++ [p], st.threw⟩
        match cfg.stat p with
        | none => st1
        | some fstat =>
            match evalNode cfg p fstat depth with
            | none => ⟨st1.results, st1.visited, true⟩
            | some matched =>
                let st2 : TravResult :=
                  if matched then
                    ⟨st1.results ++ [nodeRel cfg.searchPath cfg.basePath p], st1.visited, st1.threw⟩
                  else st1
                if fstat.isDirectory then
                  (cfg.readdir p).foldl
                    (fun s e => findRec cfg fuel (childPath p e) (depth + 1) s) st2
                else st2

/-! ## Action phase and the command entry point (`findCommand.execute`) -/

/-- The (stdout, stderr, exitCode) triple every invocation produces. -/
structure ExecResult where
  stdout : String
  stderr : String
  exitCode : Int
deriving DecidableEq, Repr

/-- Modelled from the spec: the help check of `findCommand.execute` lives
in the repository's shared `help.ts`, which is not part of the provided
sources; per the spec, a help flag short-circuits the invocation into a
static usage listing with exit code 0. -/
def hasHelpFlag (args : List String) : Bool := args.contains "--help"

/-- Modelled from the spec: the static usage listing produced for a help
flag (its exact text is immaterial to every claim). -/
def helpResult : ExecResult :=
  ⟨"Usage: find [path...] [expression]\n", "", 0⟩

/-- The configuration the pre-pass loop of `execute` accumulates. -/
structure PreConfig where
  searchPath : String
  maxDepth : Option (Option Int)
  minDepth : Option (Option Int)

/-- The source's `PREDICATES_WITH_ARGS` set. -/
def predicatesWithArgs : List String :=
  ["-name", "-iname", "-path", "-ipath", "-type", "-maxdepth", "-mindepth",
   "-mtime", "-newer", "-size"]

/-- The pre-pass loop of `execute`: find the search path (the last bare
argument that is not `;` or `+`), parse `-maxdepth`/`-mindepth` values
with `parseInt` (a `NaN` value is recorded as `some none`), skip `-exec`
templates through their terminator and the value arguments of known
predicates.  Fuel decreases once per iteration; every iteration consumes
at least one argument. -/
def prePassF : Nat → List String → PreConfig → PreConfig
  | 0, _, acc => acc
  | _n+1, [], acc => acc
  | n+1, "-maxdepth" :: v :: rest, acc =>
      prePassF n rest { acc with maxDepth := some (jsParseInt v) }
  | n+1, "-mindepth" :: v :: rest, acc =>
      prePassF n rest { acc with minDepth := some (jsParseInt v) }
  | n+1, "-exec" :: rest, acc =>
      prePassF n ((takeUntilTerm rest).2.drop 1) acc
  | n+1, arg :: rest, acc =>
      if !jsStartsWith arg '-' && arg ≠ ";" && arg ≠ "+" then
        prePassF n rest { acc with searchPath := arg }
      else if predicatesWithArgs.contains arg then
        prePassF n (rest.drop 1) acc
      else prePassF n rest acc

/-- Descending path length, the `-delete` sort relation
(`(a, b) => b.length - a.length`). -/
def lenDescRel (a b : String) : Prop := jsLength b ≤ jsLength a

instance : DecidableRel lenDescRel := fun a b => Nat.decLe (jsLength b) (jsLength a)

instance : IsTotal String lenDescRel :=
  ⟨fun a b => (Nat.le_total (jsLength b) (jsLength a))⟩

instance : IsTrans String lenDescRel :=
  ⟨fun _ _ _ h1 h2 => Nat.le_trans h2 h1⟩

/-- The match list sorted by descending path length for `-delete`.  JS
`Array.prototype.sort` is a stable sort; insertion sort with this
non-strict relation realises the same (stable) reordering. -/
def sortByLenDesc (l : List String) : List String := List.insertionSort lenDescRel l

/-- The `-delete` action body: remove each path of `files` in order
(non-recursively, through the `rmAt` oracle: `none` is success, `some
msg` a failure message), appending one stderr line and forcing exit code
1 per failure while continuing with the rest.  Also returns the list of
attempted removals. -/
def deletePhase (rmAt : String → Option String) (files : List String)
    (stderr0 : String) (exit0 : Int) : String × Int × List String :=
  files.foldl
    (fun acc f =>
      match rmAt f with
      | none => (acc.1, acc.2.1, acc.2.2 ++ [f])
      | some msg =>
          (acc.1 ++ "find: cannot delete '" ++ f ++ "': " ++ msg ++ "\n", 1,
           acc.2.2 ++ [f]))
    (stderr0, exit0, [])

/-- `results.join(sep) + term` when non-empty, `""` otherwise. -/
def joinWith (sep : String) (l : List String) (term : String) : String :=
  match l with
  | [] => ""
  | _ :: _ => String.intercalate sep l ++ term

/-- The naive quoting of `-exec`: each fragment wrapped in double quotes
(embedded quotes are not escaped), joined with spaces. -/
def quoteArgs (parts : List String) : String :=
  String.intercalate " " (parts.map (fun p => "\"" ++ p ++ "\""))

/-- Batch-mode placeholder substitution: each `{}` fragment is replaced by
the entire match list, inline. -/
def substBatch (command results : List String) : List String :=
  (command.map (fun part => if part = "{}" then results else [part])).flatten

/-- The action loop of `execute`, in registration order, accumulating the
(stdout, stderr, exitCode) triple.  A `-exec` without an execution
capability returns the fatal configuration error immediately, discarding
the accumulation, as the source's early `return` does. -/
def runActionsLoop (exec? : Option (String → ExecResult))
    (rmAt : String → Option String) (results : List String) :
    List FindAction → String × String × Int → ExecResult
  | [], (o, e, c) => ⟨o, e, c⟩
  | .print :: rest, (o, e, c) =>
      runActionsLoop exec? rmAt results rest (o ++ joinWith "\n" results "\n", e, c)
  | .print0 :: rest, (o, e, c) =>
      runActionsLoop exec? rmAt results rest (o ++ joinWith "\x00" results "\x00", e, c)
  | .delete :: rest, (o, e, c) =>
      let d := deletePhase rmAt (sortByLenDesc results) e c
      runActionsLoop exec? rmAt results rest (o, d.1, d.2.1)
  | .exec cmd batch :: rest, (o, e, c) =>
      match exec? with
      | none => ⟨"", "find: -exec not supported in this context\n", 1⟩
      | some ex =>
          if batch then
            let r := ex (quoteArgs (substBatch cmd results))
            runActionsLoop exec? rmAt results rest
              (o ++ r.stdout, e ++ r.stderr, if r.exitCode ≠ 0 then r.exitCode else c)
          else
            let acc := results.foldl
              (fun (a : String × String × Int) f =>
                let r := ex (quoteArgs (cmd.map (fun part => if part = "{}" then f else part)))
                (a.1 ++ r.stdout, a.2.1 ++ r.stderr,
                 if r.exitCode ≠ 0 then r.exitCode else a.2.2))
              (o, e, c)
            runActionsLoop exec? rmAt results rest acc

/-- `findCommand.execute`, end to end: help check; pre-pass; expression
parse (a parse error returns before any file-system access); search root
existence check; `-newer` reference resolution; traversal; action phase
(an empty action list is an implicit `-print`).  Returns the produced
`ExecResult` — `none` when an evaluation exception escaped, in which case
the invocation produces no result triple at all — paired with the
traversal's visit log. -/
def findExecute (fuel : Nat) (args : List String) (cwd : String)
    (resolve : String → String → String) (stat : String → Option FStat)
    (readdir : String → List String) (rmOracle : String → Option String)
    (exec? : Option (String → ExecResult)) (now : Int) :
    Option ExecResult × List String :=
  if hasHelpFlag args then (some helpResult, [])
  else
    let pre := prePassF args.length args ⟨".", none, none⟩
    let pr := parseExpressions args
    match pr.error with
    | some e => (some ⟨"", e, 1⟩, [])
    | none =>
        let basePath := resolve cwd pre.searchPath
        match stat basePath with
        | none =>
            (some ⟨"", "find: " ++ pre.searchPath ++ ": No such file or directory\n", 1⟩, [])
        | some _ =>
            let refTimes : String → Option Int :=
              match pr.expr with
              | none => fun _ => none
              | some e =>
                  resolveNewerRefs (resolve cwd) (fun q => (stat q).map (fun s => s.mtime)) e
                    (fun _ => none)
            let cfg : TravConfig :=
              ⟨pre.searchPath, basePath, pre.maxDepth, pre.minDepth, pr.expr, refTimes,
               now, stat, readdir⟩
            let tr := findRec cfg fuel basePath 0 ⟨[], [], false⟩
            if tr.threw then (none, tr.visited)
            else
              match pr.actions with
              | [] => (some ⟨joinWith "\n" tr.results "\n", "", 0⟩, tr.visited)
              | acts =>
                  (some (runActionsLoop exec? (fun f => rmOracle (resolve cwd f)) tr.results
                    acts ("", "", 0)), tr.visited)

/-! ## Concrete instances used by witnesses and counterexamples -/

/-- A sample evaluation context whose name and relative path are `nm`. -/
def sampleCtx (nm : String) : EvalContext :=
  ⟨nm, nm, true, false, false, 0, 0, fun _ => none⟩

/-- A sample context with an `isEmpty` flag set, for the negation witness. -/
def sampleEmptyCtx : EvalContext :=
  ⟨"e", "e", true, false, true, 0, 0, fun _ => none⟩

/-- A sample context whose reference-time map binds `"r"` to `5`. -/
def sampleNewerCtx : EvalContext :=
  ⟨"n", "n", true, false, false, 9, 0, fun x => if x = "r" then some 5 else none⟩

/-- Stat oracle of the C2 scenario tree
(`a.txt` 10 bytes, `b.log` 0 bytes, `d/c.txt` 5 bytes under `/root`). -/
def c2Stat : String → Option FStat := fun p =>
  if p = "/root" then some ⟨false, true, 0, 0⟩
  else if p = "/root/a.txt" then some ⟨true, false, 10, 0⟩
  else if p = "/root/b.log" then some ⟨true, false, 0, 0⟩
  else if p = "/root/d" then some ⟨false, true, 0, 0⟩
  else if p = "/root/d/c.txt" then some ⟨true, false, 5, 0⟩
  else none

/-- Directory listing oracle of the C2 scenario tree. -/
def c2Readdir : String → List String := fun p =>
  if p = "/root" then ["a.txt", "b.log", "d"]
  else if p = "/root/d" then ["c.txt"]
  else []

/-- Path resolution oracle of the C2 scenario (`.` resolves to the working
directory; absolute paths resolve to themselves). -/
def c2Resolve : String → String → String := fun cwd p =>
  if p = "." then cwd else if jsStartsWith p '/' then p else cwd ++ "/" ++ p

/-- The traversal configuration `findExecute` builds in the C2 scenario. -/
def c2Cfg : TravConfig :=
  ⟨".", "/root", none, none, some (.name "*.txt" false), fun _ => none, 0,
   c2Stat, c2Readdir⟩

/-- Stat oracle of the C3 counterexample tree: directory `/r` containing
the file `/r/x`. -/
def cexStat : String → Option FStat := fun p =>
  if p = "/r" then some ⟨false, true, 0, 0⟩
  else if p = "/r/x" then some ⟨true, false, 3, 0⟩
  else none

/-- Directory listing oracle of the C3 counterexample tree. -/
def cexReaddir : String → List String := fun p =>
  if p = "/r" then ["x"] else []

/-! ## Helper lemmas -/

/-- A unary invariant preserved by every step of a fold is preserved by
the fold. -/
theorem foldl_inv {α σ : Type} (P : σ → Prop) (f : σ → α → σ) :
    ∀ (l : List α), (∀ s a, a ∈ l → P s → P (f s a)) → ∀ s, P s → P (l.foldl f s) := by
  intro l
  induction l with
  | nil => intro _ s hs; simpa
  | cons a t ih =>
      intro h s hs
      exact ih (fun s' a' ha' hs' => h s' a' (List.mem_cons_of_mem _ ha') hs') _
        (h s a (List.mem_cons_self _ _) hs)

/-- A binary relation preserved by parallel steps of two folds over the
same list is preserved by the folds. -/
theorem foldl_rel {α σ τ : Type} (R : σ → τ → Prop) (f : σ → α → σ) (g : τ → α → τ) :
    ∀ (l : List α), (∀ s t a, a ∈ l → R s t → R (f s a) (g t a)) →
      ∀ s t, R s t → R (l.foldl f s) (l.foldl g t) := by
  intro l
  induction l with
  | nil => intro _ s t h; simpa
  | cons a u ih =>
      intro h s t hst
      exact ih (fun s' t' a' ha' h' => h s' t' a' (List.mem_cons_of_mem _ ha') h') _ _
        (h s t a (List.mem_cons_self _ _) hst)

/-- A fold whose step fixes every state is the identity. -/
theorem foldl_fixed {α σ : Type} (f : σ → α → σ) :
    ∀ (l : List α), (∀ s a, a ∈ l → f s a = s) → ∀ s, l.foldl f s = s := by
  intro l
  induction l with
  | nil => intro _ s; rfl
  | cons a t ih =>
      intro h s
      rw [List.foldl_cons, h s a (List.mem_cons_self _ _)]
      exact ih (fun s' a' ha' => h s' a' (List.mem_cons_of_mem _ ha')) s

/-- `jsLength` is additive over JS string concatenation. -/
theorem jsLength_append (s t : String) : jsLength (s ++ t) = jsLength s + jsLength t := by
  simp [jsLength, String.toList, String.data_append]

/-- `jsLength` of `jsDrop`. -/
theorem jsLength_jsDrop (s : String) (n : Nat) :
    jsLength (jsDrop s n) = s.toList.length - n := by
  simp [jsLength, jsDrop, String.toList]

/-- A nonempty string has a nonempty character list. -/
theorem one_le_toList_length {s : String} (h : s ≠ "") : 1 ≤ s.toList.length := by
  rcases hs : s.toList with _ | ⟨a, t⟩
  · exact absurd (String.ext (by simpa [String.toList] using hs)) h
  · simp

/-- The relative path of a node strictly longer than the base path is
strictly longer than the search path (and in particular differs from it). -/
theorem nodeRel_ne_searchPath (sp bp p : String) (h : jsLength bp < jsLength p) :
    nodeRel sp bp p ≠ sp := by
  have hpb : p ≠ bp := by
    intro he
    rw [he] at h
    exact lt_irrefl _ h
  unfold nodeRel
  rw [if_neg hpb]
  by_cases hsp : sp = "."
  · rw [if_pos hsp, hsp]
    intro heq
    have := congrArg jsLength heq
    rw [jsLength_append] at this
    have h2 : jsLength "./" = 2 := by decide
    have h1 : jsLength "." = 1 := by decide
    omega
  · rw [if_neg hsp]
    intro heq
    have hlen := congrArg jsLength heq
    rw [jsLength_append, jsLength_jsDrop] at hlen
    unfold jsLength at h hlen
    omega

/-- A child of the base path is strictly longer than the base path,
provided the entry name is nonempty. -/
theorem childPath_len_root (bp e : String) (he : e ≠ "") :
    jsLength bp < jsLength (childPath bp e) := by
  unfold childPath
  by_cases hb : bp = "/"
  · rw [if_pos hb, hb, jsLength_append]
    have h1 : jsLength "/" = 1 := by decide
    have := one_le_toList_length he
    unfold jsLength
    omega
  · rw [if_neg hb, jsLength_append, jsLength_append]
    have h1 : jsLength "/" = 1 := by decide
    omega

/-- A child of a path strictly longer than the base path is also strictly
longer than the base path. -/
theorem childPath_len_step (bp p e : String) (h : jsLength bp < jsLength p) :
    jsLength bp < jsLength (childPath p e) := by
  unfold childPath
  by_cases hp : p = "/"
  · rw [if_pos hp]
    rw [hp] at h
    have h1 : jsLength "/" = 1 := by decide
    rw [jsLength_append]
    omega
  · rw [if_neg hp, jsLength_append, jsLength_append]
    have h1 : jsLength "/" = 1 := by decide
    omega

/-- The glob translation succeeds on any character list that contains no
`[` (the only failing branches belong to character classes), given fuel
above the list length. -/
theorem compileGlobF_isSome_of_no_bracket :
    ∀ (fuel : Nat) (cs : List Char), cs.length < fuel →
      (∀ c ∈ cs, c ≠ '[') → (compileGlobF fuel cs).isSome = true := by
  intro fuel
  induction fuel with
  | zero => intro cs h _; omega
  | succ n ih =>
      intro cs hlen hmem
      match cs with
      | [] => rfl
      | c :: rest =>
          have hc : c ≠ '[' := hmem c (List.mem_cons_self _ _)
          have hrest : ∀ d ∈ rest, d ≠ '[' :=
            fun d hd => hmem d (List.mem_cons_of_mem _ hd)
          have hr : rest.length < n := by simpa using Nat.lt_of_succ_lt_succ hlen
          have hsome := ih rest hr hrest
          by_cases h1 : c = '*'
          · simp [compileGlobF, h1, Option.isSome_map, hsome]
          · by_cases h2 : c = '?'
            · simp [compileGlobF, h1, h2, Option.isSome_map, hsome]
            · simp [compileGlobF, h1, h2, hc, Option.isSome_map, hsome]

/-- If every glob pattern of an expression compiles, its evaluation never
throws. -/
theorem evaluateExpression_isSome (now : Int) :
    ∀ (e : Expression) (ctx : EvalContext), exprGlobsCompile e = true →
      (evaluateExpression now e ctx).isSome = true := by
  intro e
  induction e with
  | name pat ic =>
      intro ctx h
      simp only [exprGlobsCompile] at h
      simp only [evaluateExpression, matchGlob]
      rcases Option.isSome_iff_exists.mp h with ⟨items, hi⟩
      rw [hi]
      rfl
  | path pat ic =>
      intro ctx h
      simp only [exprGlobsCompile] at h
      simp only [evaluateExpression, matchGlob]
      rcases Option.isSome_iff_exists.mp h with ⟨items, hi⟩
      rw [hi]
      rfl
  | type ft => intro ctx _; rfl
  | empty => intro ctx _; rfl
  | mtime days cmp => intro ctx _; rfl
  | newer ref => intro ctx _; rfl
  | size v u cmp => intro ctx _; rfl
  | not e ihe =>
      intro ctx h
      simp only [exprGlobsCompile] at h
      have := ihe ctx h
      simp only [evaluateExpression]
      rcases Option.isSome_iff_exists.mp this with ⟨b, hb⟩
      rw [hb]
      rfl
  | and l r ihl ihr =>
      intro ctx h
      simp only [exprGlobsCompile, Bool.and_eq_true] at h
      have hl := ihl ctx h.1
      simp only [evaluateExpression]
      rcases Option.isSome_iff_exists.mp hl with ⟨b, hb⟩
      rw [hb]
      cases b
      · rfl
      · exact ihr ctx h.2
  | or l r ihl ihr =>
      intro ctx h
      simp only [exprGlobsCompile, Bool.and_eq_true] at h
      have hl := ihl ctx h.1
      simp only [evaluateExpression]
      rcases Option.isSome_iff_exists.mp hl with ⟨b, hb⟩
      rw [hb]
      cases b
      · exact ihr ctx h.2
      · rfl

/-- If the optional expression compiles, the per-node matching decision
never throws. -/
theorem evalNode_isSome (cfg : TravConfig) (p : String) (fs : FStat) (d : Nat)
    (hwf : exprOptCompiles cfg.expr = true) : (evalNode cfg p fs d).isSome = true := by
  unfold evalNode
  by_cases hmn : minDepthOk cfg.minDepth d
  · rw [if_pos hmn]
    match he : cfg.expr with
    | none => rfl
    | some e =>
        rw [he] at hwf
        exact evaluateExpression_isSome cfg.now e _ hwf
  · rw [if_neg hmn]
    rfl

/-- The stderr text `-delete` accumulates: one line per failing removal,
in processing order, nothing for a successful one. -/
def deleteErrLines (rmAt : String → Option String) : List String → String
  | [] => ""
  | f :: rest =>
      (match rmAt f with
       | some msg => "find: cannot delete '" ++ f ++ "': " ++ msg ++ "\n"
       | none => "") ++ deleteErrLines rmAt rest

/-- Closed form of the `-delete` fold: the accumulated stderr is the
initial stderr followed by one line per failure, the exit code becomes 1
exactly when some removal fails, and every file is attempted, in order. -/
theorem deletePhase_closed (rmAt : String → Option String) :
    ∀ (files : List String) (e0 : String) (c0 : Int) (att0 : List String),
      files.foldl
        (fun acc f =>
          match rmAt f with
          | none => (acc.1, acc.2.1, acc.2.2 ++ [f])
          | some msg =>
              (acc.1 ++ "find: cannot delete '" ++ f ++ "': " ++ msg ++ "\n", 1,
               acc.2.2 ++ [f]))
        (e0, c0, att0)
      = (e0 ++ deleteErrLines rmAt files,
         (if files.any (fun f => (rmAt f).isSome) then 1 else c0),
         att0 ++ files) := by
  intro files
  induction files with
  | nil => intro e0 c0 att0; simp [deleteErrLines]
  | cons f rest ih =>
      intro e0 c0 att0
      rw [List.foldl_cons]
      cases hf : rmAt f with
      | none =>
          simp only [hf]
          rw [ih]
          simp [deleteErrLines, hf, List.any_cons]
      | some msg =>
          simp only [hf]
          rw [ih]
          simp [deleteErrLines, hf, List.any_cons, String.append_assoc]

/-- All removals succeeding produces no stderr lines. -/
theorem deleteErrLines_empty (rmAt : String → Option String) :
    ∀ (files : List String), (∀ f ∈ files, rmAt f = none) →
      deleteErrLines rmAt files = "" := by
  intro files
  induction files with
  | nil => intro _; rfl
  | cons f rest ih =>
      intro h
      have hf := h f (List.mem_cons_self _ _)
      simp only [deleteErrLines, hf]
      rw [ih (fun g hg => h g (List.mem_cons_of_mem _ hg))]
      rfl

/-- All removals succeeding means no element registers a failure. -/
theorem delete_any_false (rmAt : String → Option String) :
    ∀ (files : List String), (∀ f ∈ files, rmAt f = none) →
      files.any (fun f => (rmAt f).isSome) = false := by
  intro files h
  rw [List.any_eq_false]
  intro f hf
  rw [h f hf]
  simp

/-- With `maxDepth = 0`, the traversal at any positive depth does nothing
at all: no stat, no match, no recursion. -/
theorem findRec_stop_of_maxdepth0 (cfg : TravConfig) (hmx : cfg.maxDepth = some (some 0)) :
    ∀ (fuel : Nat) (p : String) (d : Nat) (st : TravResult), 1 ≤ d →
      findRec cfg fuel p d st = st := by
  intro fuel p d st hd
  cases fuel with
  | zero => rfl
  | succ f =>
      by_cases ht : st.threw
      · simp [findRec, ht]
      · have hex : maxDepthExceeded cfg.maxDepth d = true := by
          rw [hmx]
          simp only [maxDepthExceeded, decide_eq_true_eq]
          exact_mod_cast hd
        simp [findRec, ht, hex]

/-- With `maxDepth = 0`, a non-thrown traversal from depth 0 stats exactly
the root node: its visit log grows by exactly the root path. -/
theorem findRec_maxdepth0_visited (cfg : TravConfig) (hmx : cfg.maxDepth = some (some 0))
    (fuel : Nat) (p : String) (st : TravResult) (ht : st.threw = false) (hf : 1 ≤ fuel) :
    (findRec cfg fuel p 0 st).visited = st.visited ++ [p] := by
  match fuel, hf with
  | f + 1, _ =>
      have hex : maxDepthExceeded cfg.maxDepth 0 = false := by
        rw [hmx]
        simp [maxDepthExceeded]
      rw [findRec]
      rw [if_neg (by simp [ht]), if_neg (by simp [hex])]
      cases hstat : cfg.stat p with
      | none => rfl
      | some fs =>
          dsimp only
          cases hev : evalNode cfg p fs 0 with
          | none => rfl
          | some m =>
              dsimp only
              have hchild : ∀ (s : TravResult) (e : String), e ∈ cfg.readdir p →
                  findRec cfg f (childPath p e) (0 + 1) s = s :=
                fun s e _ => findRec_stop_of_maxdepth0 cfg hmx f _ 1 s (le_refl 1)
              cases m with
              | false =>
                  by_cases hdir : fs.isDirectory = true
                  · simp only [if_false, hdir, if_true]
                    rw [foldl_fixed _ _ hchild]
                    rfl
                  · simp only [hdir, if_false]
                    rfl
              | true =>
                  by_cases hdir : fs.isDirectory = true
                  · simp only [if_true, hdir]
                    rw [foldl_fixed _ _ hchild]
                  · simp only [hdir, if_false]
                    rfl

/-- Traversal invariant: from a node whose path is strictly longer than
the base path, the traversal never appends the search path to the match
list (every relative path it reports is strictly longer). -/
theorem findRec_sp_not_mem (cfg : TravConfig) :
    ∀ (fuel : Nat) (p : String) (d : Nat) (st : TravResult),
      jsLength cfg.basePath < jsLength p → cfg.searchPath ∉ st.results →
      cfg.searchPath ∉ (findRec cfg fuel p d st).results := by
  intro fuel
  induction fuel with
  | zero => intro p d st _ h; exact h
  | succ f ih =>
      intro p d st hlen hsp
      rw [findRec]
      by_cases ht : st.threw = true
      · rw [if_pos ht]; exact hsp
      · rw [if_neg ht]
        by_cases hex : maxDepthExceeded cfg.maxDepth d = true
        · rw [if_pos hex]; exact hsp
        · rw [if_neg hex]
          cases hstat : cfg.stat p with
          | none => exact hsp
          | some fs =>
              dsimp only
              cases hev : evalNode cfg p fs d with
              | none => exact hsp
              | some m =>
                  dsimp only
                  have hne := nodeRel_ne_searchPath cfg.searchPath cfg.basePath p hlen
                  have hstep : ∀ (s : TravResult) (a : String), a ∈ cfg.readdir p →
                      cfg.searchPath ∉ s.results →
                      cfg.searchPath ∉ (findRec cfg f (childPath p a) (d + 1) s).results :=
                    fun s a _ hs => ih (childPath p a) (d + 1) s
                      (childPath_len_step cfg.basePath p a hlen) hs
                  cases m with
                  | false =>
                      simp only [Bool.false_eq_true, if_false]
                      by_cases hdir : fs.isDirectory = true
                      · rw [if_pos hdir]
                        exact foldl_inv (fun s : TravResult => cfg.searchPath ∉ s.results) _
                          (cfg.readdir p) hstep _ hsp
                      · rw [if_neg hdir]; exact hsp
                  | true =>
                      simp only [if_pos rfl]
                      have hmem : cfg.searchPath ∉
                          st.results ++ [nodeRel cfg.searchPath cfg.basePath p] := by
                        intro hm
                        rcases List.mem_append.mp hm with h | h
                        · exact hsp h
                        · exact hne (List.mem_singleton.mp h).symm
                      by_cases hdir : fs.isDirectory = true
                      · rw [if_pos hdir]
                        exact foldl_inv (fun s : TravResult => cfg.searchPath ∉ s.results) _
                          (cfg.readdir p) hstep _ hmem
                      · rw [if_neg hdir]; exact hmem

/-- With `minDepth = 1` (and nonempty directory entry names), the
traversal started at the base node never reports the search path — the
base node fails the depth gate, and every deeper node reports a strictly
longer path. -/
theorem findRec_mindepth1_root (cfg : TravConfig) (hmn : cfg.minDepth = some (some 1))
    (hne : ∀ q : String, ¬ ("" ∈ cfg.readdir q)) (fuel : Nat) (st : TravResult)
    (hsp : cfg.searchPath ∉ st.results) :
    cfg.searchPath ∉ (findRec cfg fuel cfg.basePath 0 st).results := by
  cases fuel with
  | zero => exact hsp
  | succ f =>
      rw [findRec]
      by_cases ht : st.threw = true
      · rw [if_pos ht]; exact hsp
      · rw [if_neg ht]
        by_cases hex : maxDepthExceeded cfg.maxDepth 0 = true
        · rw [if_pos hex]; exact hsp
        · rw [if_neg hex]
          cases hstat : cfg.stat cfg.basePath with
          | none => exact hsp
          | some fs =>
              dsimp only
              have hev : evalNode cfg cfg.basePath fs 0 = some false := by
                unfold evalNode
                rw [hmn]
                simp [minDepthOk]
              rw [hev]
              dsimp only
              simp only [Bool.false_eq_true, if_false]
              have hstep : ∀ (s : TravResult) (a : String), a ∈ cfg.readdir cfg.basePath →
                  cfg.searchPath ∉ s.results →
                  cfg.searchPath ∉ (findRec cfg f (childPath cfg.basePath a) (0 + 1) s).results := by
                intro s a ha hs
                have hane : a ≠ "" := by
                  intro hae
                  rw [hae] at ha
                  exact hne cfg.basePath ha
                exact findRec_sp_not_mem cfg f _ 1 s
                  (childPath_len_root cfg.basePath a hane) hs
              by_cases hdir : fs.isDirectory = true
              · rw [if_pos hdir]
                exact foldl_inv (fun s : TravResult => cfg.searchPath ∉ s.results) _
                  (cfg.readdir cfg.basePath) hstep _ hsp
              · rw [if_neg hdir]; exact hsp

/-- When every glob pattern of the expression compiles (evaluation never
throws), the `minDepth` bound has no influence on traversal: two
traversals differing only in `minDepth` stat exactly the same nodes, and
neither ever throws. -/
theorem findRec_visited_minDepth_indep
    (sp bp : String) (mx : Option (Option Int)) (e : Option Expression)
    (rT : String → Option Int) (now : Int) (statO : String → Option FStat)
    (rd : String → List String) (mnA mnB : Option (Option Int))
    (hwf : exprOptCompiles e = true) :
    ∀ (fuel : Nat) (p : String) (d : Nat) (stA stB : TravResult),
      stA.threw = false → stB.threw = false → stA.visited = stB.visited →
      ((findRec ⟨sp, bp, mx, mnA, e, rT, now, statO, rd⟩ fuel p d stA).threw = false
       ∧ (findRec ⟨sp, bp, mx, mnB, e, rT, now, statO, rd⟩ fuel p d stB).threw = false
       ∧ (findRec ⟨sp, bp, mx, mnA, e, rT, now, statO, rd⟩ fuel p d stA).visited
          = (findRec ⟨sp, bp, mx, mnB, e, rT, now, statO, rd⟩ fuel p d stB).visited) := by
  intro fuel
  induction fuel with
  | zero =>
      intro p d stA stB htA htB hv
      exact ⟨htA, htB, hv⟩
  | succ f ih =>
      intro p d stA stB htA htB hv
      rw [findRec, findRec]
      simp only [htA, htB, Bool.false_eq_true, if_false]
      by_cases hex : maxDepthExceeded mx d = true
      · rw [if_pos hex, if_pos hex]
        exact ⟨htA, htB, hv⟩
      · rw [if_neg hex, if_neg hex]
        cases hstat : statO p with
        | none =>
            dsimp only
            exact ⟨rfl, rfl, by rw [hv]⟩
        | some fs =>
            dsimp only
            have hA : (evalNode ⟨sp, bp, mx, mnA, e, rT, now, statO, rd⟩ p fs d).isSome = true :=
              evalNode_isSome _ p fs d hwf
            have hB : (evalNode ⟨sp, bp, mx, mnB, e, rT, now, statO, rd⟩ p fs d).isSome = true :=
              evalNode_isSome _ p fs d hwf
            rcases Option.isSome_iff_exists.mp hA with ⟨mA, hmA⟩
            rcases Option.isSome_iff_exists.mp hB with ⟨mB, hmB⟩
            rw [hmA, hmB]
            dsimp only
            have hR :
                (if mA = true then
                   ({ results := stA.results ++ [nodeRel sp bp p],
                      visited := stA.visited ++ [p], threw := false } : TravResult)
                 else { results := stA.results, visited := stA.visited ++ [p], threw := false }).threw = false
                ∧ (if mB = true then
                     ({ results := stB.results ++ [nodeRel sp bp p],
                        visited := stB.visited ++ [p], threw := false } : TravResult)
                   else { results := stB.results, visited := stB.visited ++ [p], threw := false }).threw = false
                ∧ (if mA = true then
                     ({ results := stA.results ++ [nodeRel sp bp p],
                        visited := stA.visited ++ [p], threw := false } : TravResult)
                   else { results := stA.results, visited := stA.visited ++ [p], threw := false }).visited
                    = (if mB = true then
                         ({ results := stB.results ++ [nodeRel sp bp p],
                            visited := stB.visited ++ [p], threw := false } : TravResult)
                       else { results := stB.results, visited := stB.visited ++ [p], threw := false }).visited := by
              cases mA <;> cases mB <;> simp [hv]
            by_cases hdir : fs.isDirectory = true
            · rw [if_pos hdir, if_pos hdir]
              exact foldl_rel
                (fun sA sB : TravResult =>
                  sA.threw = false ∧ sB.threw = false ∧ sA.visited = sB.visited)
                _ _ (rd p)
                (fun sA sB a _ h => ih (childPath p a) (d + 1) sA sB h.1 h.2.1 h.2.2)
                _ _ hR
            · rw [if_neg hdir, if_neg hdir]
              exact hR

/-! ## Claim theorems -/

/-- Claim C1: the expression builder applies the precedence
NOT > AND (implicit or explicit) > OR.  For any three `-name` patterns,
the token sequence `-name pa -o -name pb -a -name pc` builds the tree
`(name pa) OR ((name pb) AND (name pc))`; on a node whose name matches
`pb` and `pc` but not `pa` it evaluates to true, and on a node matching
only `pb` it evaluates to false. -/
theorem precedence_or_and (pa pb pc : String) (ctx1 ctx2 : EvalContext) (n1 n2 : Int)
    (h1a : matchGlob ctx1.name pa false = some false)
    (h1b : matchGlob ctx1.name pb false = some true)
    (h1c : matchGlob ctx1.name pc false = some true)
    (h2a : matchGlob ctx2.name pa false = some false)
    (h2b : matchGlob ctx2.name pb false = some true)
    (h2c : matchGlob ctx2.name pc false = some false) :
    (parseExpressions ["-name", pa, "-o", "-name", pb, "-a", "-name", pc]).expr
        = some (.or (.name pa false) (.and (.name pb false) (.name pc false)))
    ∧ evaluateExpression n1
        (.or (.name pa false) (.and (.name pb false) (.name pc false))) ctx1 = some true
    ∧ evaluateExpression n2
        (.or (.name pa false) (.and (.name pb false) (.name pc false))) ctx2 = some false := by
  refine ⟨rfl, ?_, ?_⟩
  · simp only [evaluateExpression, h1a, h1b, h1c]
  · simp only [evaluateExpression, h2a, h2b, h2c]

/-- Witness for C1 at the patterns `a*`, `b*`, `*c`: the node named `bc`
matches `b*` and `*c` but not `a*` and evaluates to true; the node named
`b` matches only `b*` and evaluates to false. -/
theorem precedence_or_and_witness :
    (parseExpressions ["-name", "a*", "-o", "-name", "b*", "-a", "-name", "*c"]).expr
        = some (.or (.name "a*" false) (.and (.name "b*" false) (.name "*c" false)))
    ∧ evaluateExpression 0
        (.or (.name "a*" false) (.and (.name "b*" false) (.name "*c" false)))
        (sampleCtx "bc") = some true
    ∧ evaluateExpression 0
        (.or (.name "a*" false) (.and (.name "b*" false) (.name "*c" false)))
        (sampleCtx "b") = some false :=
  precedence_or_and "a*" "b*" "*c" (sampleCtx "bc") (sampleCtx "b") 0 0
    (by decide) (by decide) (by decide) (by decide) (by decide) (by decide)

/-- Claim C4: the size predicate `size{value = 1, unit = 512-byte blocks,
comparison = exact}` is true exactly when the byte size lies in the
half-open interval `(0, 512]` (the block count is the ceiling of
size / 512); in particular it is false at 0 bytes and at 513 bytes. -/
theorem size_one_block_exact (ctx : EvalContext) (now : Int) :
    evaluateExpression now (.size 1 .b .exact) ctx
      = some (decide (0 < ctx.size ∧ ctx.size ≤ 512)) := by
  simp only [evaluateExpression, sizeExactMatch]
  congr 1
  rw [decide_eq_decide]
  omega

/-- Claim C5: evaluating `not E` yields the boolean negation of
evaluating `E`, whenever the latter yields a boolean (a thrown glob
exception propagates through both alike). -/
theorem not_negates (e : Expression) (ctx : EvalContext) (now : Int) (b : Bool)
    (h : evaluateExpression now e ctx = some b) :
    evaluateExpression now (.not e) ctx = some (!b) := by
  simp only [evaluateExpression, h, Option.map_some']

/-- Witness for C5: `-empty` on an empty-flagged context evaluates to
true, and its negation to false. -/
theorem not_negates_witness :
    evaluateExpression 0 (.not .empty) sampleEmptyCtx = some false :=
  not_negates .empty sampleEmptyCtx 0 true rfl

/-- Claim C6: the `newer{ref}` predicate is true iff the node's
modification time is strictly greater than the resolved reference time;
an unresolved reference (absent from the map) makes it false for every
node; and a reference whose stat fails is never entered into the map by
the resolver, with no error raised. -/
theorem newer_semantics (ref : String) (ctx : EvalContext) (now : Int) :
    (∀ t : Int, ctx.newerRefTimes ref = some t →
        evaluateExpression now (.newer ref) ctx = some (decide (t < ctx.mtime)))
    ∧ (ctx.newerRefTimes ref = none →
        evaluateExpression now (.newer ref) ctx = some false)
    ∧ (∀ (e : Expression) (resolve : String → String) (statM : String → Option Int)
        (m0 : String → Option Int),
        statM (resolve ref) = none → m0 ref = none →
        resolveNewerRefs resolve statM e m0 ref = none) := by
  refine ⟨?_, ?_, ?_⟩
  · intro t ht
    simp only [evaluateExpression, ht]
  · intro ht
    simp only [evaluateExpression, ht]
  · intro e resolve statM
    induction e with
    | newer rp =>
        intro m0 hstat h0
        simp only [resolveNewerRefs]
        cases hrp : statM (resolve rp) with
        | none => exact h0
        | some t =>
            by_cases hx : ref = rp
            · rw [hx] at hstat
              rw [hstat] at hrp
              exact absurd hrp (by simp)
            · simp only [if_neg hx]
              exact h0
    | not e ihe => exact ihe
    | and l r ihl ihr =>
        intro m0 hstat h0
        exact ihr _ hstat (ihl m0 hstat h0)
    | or l r ihl ihr =>
        intro m0 hstat h0
        exact ihr _ hstat (ihl m0 hstat h0)
    | name pat ic => intro m0 _ h0; exact h0
    | path pat ic => intro m0 _ h0; exact h0
    | type ft => intro m0 _ h0; exact h0
    | empty => intro m0 _ h0; exact h0
    | mtime days cmp => intro m0 _ h0; exact h0
    | size v u cmp => intro m0 _ h0; exact h0

/-- Witness for C6: a bound reference compares strictly (5 < 9 gives
true), an unbound reference gives false, and the resolver leaves a
stat-failing reference out of the map. -/
theorem newer_semantics_witness :
    evaluateExpression 0 (.newer "r") sampleNewerCtx = some true
    ∧ evaluateExpression 0 (.newer "q") sampleNewerCtx = some false
    ∧ resolveNewerRefs (fun x => x) (fun _ => none) (.newer "r") (fun _ => none) "r" = none :=
  ⟨by
    have h := (newer_semantics "r" sampleNewerCtx 0).1 5 rfl
    simpa using h,
   (newer_semantics "q" sampleNewerCtx 0).2.1 rfl,
   (newer_semantics "r" sampleNewerCtx 0).2.2 (.newer "r") (fun x => x) (fun _ => none)
     (fun _ => none) rfl rfl⟩

/-- Claim C9: a `-mtime` or `-size` whose value argument has a
non-numeric body is silently dropped by the tokenizer: the value argument
is consumed, no predicate token is emitted, no error is raised, and the
scan state is exactly as if the two arguments were absent. -/
theorem malformed_numeric_dropped (n : Nat) (v : String) (rest : List String)
    (toks : List Token) (acts : List FindAction) :
    (jsParseInt (stripSign v).2 = none →
      parseLoopF (n + 1) ("-mtime" :: v :: rest) toks acts = parseLoopF n rest toks acts)
    ∧ (parseSizeBody (stripSign v).2 = none →
      parseLoopF (n + 1) ("-size" :: v :: rest) toks acts = parseLoopF n rest toks acts) := by
  constructor
  · intro h
    have hp : pushMtime toks v = toks := by simp only [pushMtime, h]
    show parseLoopF n rest (pushMtime toks v) acts = parseLoopF n rest toks acts
    rw [hp]
  · intro h
    have hp : pushSize toks v = toks := by simp only [pushSize, h]
    show parseLoopF n rest (pushSize toks v) acts = parseLoopF n rest toks acts
    rw [hp]

/-- Witness for C9 at the non-numeric body `x`: both `-mtime x` and
`-size x` leave the scan state untouched. -/
theorem malformed_numeric_dropped_witness :
    parseLoopF 1 ["-mtime", "x"] [] [] = parseLoopF 0 [] [] []
    ∧ parseLoopF 1 ["-size", "x"] [] [] = parseLoopF 0 [] [] [] :=
  ⟨(malformed_numeric_dropped 0 "x" [] [] []).1 (by decide),
   (malformed_numeric_dropped 0 "x" [] [] []).2 (by decide)⟩

/-- Claim C10, counterexample: the glob matcher is not total.  For the
pattern `[ab`, whose unterminated character class is copied verbatim to
the end of the translated pattern, the `RegExp` constructor throws
(modelled by `none`) instead of any boolean being returned. -/
theorem glob_total_counterexample : matchGlob "x" "[ab" false = none := by decide

/-- Claim C10, amended: the translation loop itself is total, and the
matcher returns a boolean for every pattern containing no `[` (only the
character-class branches can produce an invalid regex). -/
theorem glob_total_amended (name pat : String) (ic : Bool)
    (h : pat.toList.all (fun c => c ≠ '[') = true) :
    (matchGlob name pat ic).isSome = true := by
  unfold matchGlob compileGlob
  rw [Option.isSome_map']
  exact compileGlobF_isSome_of_no_bracket (pat.toList.length + 1) pat.toList
    (Nat.lt_succ_self _) (fun c hc => by
      have := List.all_eq_true.mp h c hc
      simpa using this)

/-- Witness for C10 amended: the bracket-free pattern `*.txt` always
yields a boolean. -/
theorem glob_total_amended_witness : (matchGlob "a.txt" "*.txt" false).isSome = true :=
  glob_total_amended "a.txt" "*.txt" false (by decide)

/-- Claim C7, counterexample: an argument list can contain an
unrecognized flag-shaped token and still not fail — a bare path argument
after the first predicate stops the expression scan before the unknown
flag is ever examined, so `find -name a p -bad` traverses `p` and exits 0
rather than producing the unknown-predicate error. -/
theorem parse_error_counterexample :
    jsStartsWith "-bad" '-' = true
    ∧ findExecute 3 ["-name", "a", "p", "-bad"] "/" (fun _ q => "/" ++ q)
        (fun q => if q = "/p" then some ⟨true, false, 1, 0⟩ else none)
        (fun _ => []) (fun _ => none) none 0
      = (some ⟨"", "", 0⟩, ["/p"])
    ∧ (⟨"", "", 0⟩ : ExecResult) ≠ ⟨"", "find: unknown predicate '-bad'\n", 1⟩ := by
  refine ⟨rfl, ?_, by decide⟩
  rfl

/-- Claim C7, amended: whenever the expression scan actually reports a
parse error (an unknown flag-shaped token or an unterminated `-exec`
reached before any bare path argument stops the scan) and no help flag is
present, the invocation returns empty stdout, that error message on
stderr, exit code 1, and performs no traversal (nothing is statted). -/
theorem parse_error_amended (fuel : Nat) (args : List String) (cwd : String)
    (resolve : String → String → String) (statO : String → Option FStat)
    (rd : String → List String) (rmOracle : String → Option String)
    (exec? : Option (String → ExecResult)) (now : Int) (msg : String)
    (hh : hasHelpFlag args = false)
    (hp : (parseExpressions args).error = some msg) :
    findExecute fuel args cwd resolve statO rd rmOracle exec? now
      = (some ⟨"", msg, 1⟩, []) := by
  simp only [findExecute, hh, Bool.false_eq_true, if_false, hp]

/-- Witness for C7 amended: the lone unknown flag `-bad` yields its
unknown-predicate error and an empty visit log. -/
theorem parse_error_amended_witness :
    findExecute 3 ["-bad"] "/" (fun _ q => q) (fun _ => none) (fun _ => [])
        (fun _ => none) none 0
      = (some ⟨"", "find: unknown predicate '-bad'\n", 1⟩, []) :=
  parse_error_amended 3 ["-bad"] "/" (fun _ q => q) (fun _ => none) (fun _ => [])
    (fun _ => none) none 0 "find: unknown predicate '-bad'\n" (by decide) (by decide)

/-- Claim C8: the `-delete` action processes the match list sorted by
descending path length (a stable sort, and a permutation of the match
list), attempts each removal exactly once in that order, accumulates
exactly one stderr line per failing removal while forcing exit code 1 and
continuing with the rest, and leaves stderr and the exit code untouched
when every removal succeeds. -/
theorem delete_action_spec (cwd : String) (resolve : String → String → String)
    (rmOracle : String → Option String) (results : List String)
    (e0 : String) (c0 : Int) :
    (deletePhase (fun f => rmOracle (resolve cwd f)) (sortByLenDesc results) e0 c0).2.2
        = sortByLenDesc results
    ∧ (sortByLenDesc results).Perm results
    ∧ List.Sorted lenDescRel (sortByLenDesc results)
    ∧ (deletePhase (fun f => rmOracle (resolve cwd f)) (sortByLenDesc results) e0 c0).1
        = e0 ++ deleteErrLines (fun f => rmOracle (resolve cwd f)) (sortByLenDesc results)
    ∧ (deletePhase (fun f => rmOracle (resolve cwd f)) (sortByLenDesc results) e0 c0).2.1
        = (if (sortByLenDesc results).any (fun f => (rmOracle (resolve cwd f)).isSome)
           then 1 else c0)
    ∧ ((∀ f ∈ results, rmOracle (resolve cwd f) = none) →
        (deletePhase (fun f => rmOracle (resolve cwd f)) (sortByLenDesc results) e0 c0).1 = e0
        ∧ (deletePhase (fun f => rmOracle (resolve cwd f)) (sortByLenDesc results) e0 c0).2.1
            = c0) := by
  have hd : deletePhase (fun f => rmOracle (resolve cwd f)) (sortByLenDesc results) e0 c0
      = (e0 ++ deleteErrLines (fun f => rmOracle (resolve cwd f)) (sortByLenDesc results),
         (if (sortByLenDesc results).any (fun f => (rmOracle (resolve cwd f)).isSome)
          then 1 else c0),
         [] ++ sortByLenDesc results) :=
    deletePhase_closed (fun f => rmOracle (resolve cwd f)) (sortByLenDesc results) e0 c0 []
  have hperm : (sortByLenDesc results).Perm results := List.perm_insertionSort lenDescRel results
  refine ⟨?_, hperm, List.sorted_insertionSort lenDescRel results, ?_, ?_, ?_⟩
  · rw [hd]
    simp
  · rw [hd]
  · rw [hd]
  · intro hall
    have hmem : ∀ f ∈ sortByLenDesc results, rmOracle (resolve cwd f) = none :=
      fun f hf => hall f (hperm.mem_iff.mp hf)
    have h1 := deleteErrLines_empty (fun f => rmOracle (resolve cwd f)) _ hmem
    have h2 := delete_any_false (fun f => rmOracle (resolve cwd f)) _ hmem
    rw [hd]
    constructor
    · simp [h1]
    · simp [h2]

/-- Witness for C8: with every removal succeeding, stderr stays empty and
the exit code stays 0. -/
theorem delete_action_spec_witness :
    (deletePhase (fun _ => none) (sortByLenDesc ["a", "bb"]) "" 0).1 = ""
    ∧ (deletePhase (fun _ => none) (sortByLenDesc ["a", "bb"]) "" 0).2.1 = 0 :=
  (delete_action_spec "" (fun _ q => q) (fun _ => none) ["a", "bb"] "" 0).2.2.2.2.2
    (fun _ _ => rfl)

/-- Claim C2, counterexample: on the scenario tree (`a.txt` 10 bytes,
`b.log` 0 bytes, `d/c.txt` 5 bytes), `find -name "*.txt" -print` reports
`./a.txt` and `./d/c.txt` — every reported path carries the `./` prefix
of the default `.` search path — so the stdout is
`"./a.txt\n./d/c.txt\n"`, not the claimed `"a.txt\nd/c.txt\n"`. -/
theorem scenario_print_counterexample :
    findExecute 8 ["-name", "*.txt", "-print"] "/root" c2Resolve c2Stat c2Readdir
        (fun _ => none) none 0
      = (some ⟨"./a.txt\n./d/c.txt\n", "", 0⟩,
         ["/root", "/root/a.txt", "/root/b.log", "/root/d", "/root/d/c.txt"])
    ∧ ("./a.txt\n./d/c.txt\n" : String) ≠ "a.txt\nd/c.txt\n" := by
  refine ⟨?_, by decide⟩
  rfl

/-- Claim C2, amended: on the scenario tree the traversal collects
exactly `["./a.txt", "./d/c.txt"]`, in that order, and `-print` produces
stdout `"./a.txt\n./d/c.txt\n"` with exit code 0 and empty stderr. -/
theorem scenario_print_amended :
    (findRec c2Cfg 8 "/root" 0 ⟨[], [], false⟩).results = ["./a.txt", "./d/c.txt"]
    ∧ findExecute 8 ["-name", "*.txt", "-print"] "/root" c2Resolve c2Stat c2Readdir
        (fun _ => none) none 0
      = (some ⟨"./a.txt\n./d/c.txt\n", "", 0⟩,
         ["/root", "/root/a.txt", "/root/b.log", "/root/d", "/root/d/c.txt"]) := by
  constructor
  · rfl
  · rfl

/-- Claim C3, counterexample: `minDepth` can change which nodes are
traversed.  With the expression `-name "[a"` (whose glob translation
throws), the unbounded traversal throws at the root after statting only
it, while with `minDepth = 1` the root skips evaluation and its child is
statted too — the two visit logs differ. -/
theorem mindepth_traversal_counterexample :
    (findRec ⟨"r", "/r", none, some (some 1), some (.name "[a" false), fun _ => none, 0,
        cexStat, cexReaddir⟩ 3 "/r" 0 ⟨[], [], false⟩).visited
      ≠ (findRec ⟨"r", "/r", none, none, some (.name "[a" false), fun _ => none, 0,
          cexStat, cexReaddir⟩ 3 "/r" 0 ⟨[], [], false⟩).visited := by
  decide

/-- Claim C3, amended: with `maxDepth = 0` only the root node is ever
statted (no child is visited or recursed into); with `minDepth = 1` the
root node's relative path is never in the match list (its depth fails the
gate, and every deeper node reports a strictly longer path), provided
directory entry names are nonempty; and provided every glob pattern of
the expression compiles (evaluation never throws), the `minDepth` bound
never changes which nodes are traversed. -/
theorem depth_bounds_amended
    (statO : String → Option FStat) (rd : String → List String) (sp bp : String)
    (e : Option Expression) (rT : String → Option Int) (now : Int)
    (mx mnA mnB : Option (Option Int)) (fuel : Nat)
    (hne : ∀ q : String, ¬ ("" ∈ rd q)) (hwf : exprOptCompiles e = true)
    (hf : 1 ≤ fuel) :
    (findRec ⟨sp, bp, some (some 0), mnA, e, rT, now, statO, rd⟩ fuel bp 0
        ⟨[], [], false⟩).visited = [bp]
    ∧ sp ∉ (findRec ⟨sp, bp, mx, some (some 1), e, rT, now, statO, rd⟩ fuel bp 0
        ⟨[], [], false⟩).results
    ∧ (findRec ⟨sp, bp, mx, mnA, e, rT, now, statO, rd⟩ fuel bp 0 ⟨[], [], false⟩).visited
        = (findRec ⟨sp, bp, mx, mnB, e, rT, now, statO, rd⟩ fuel bp 0 ⟨[], [], false⟩).visited := by
  refine ⟨?_, ?_, ?_⟩
  · have h := findRec_maxdepth0_visited ⟨sp, bp, some (some 0), mnA, e, rT, now, statO, rd⟩
      rfl fuel bp ⟨[], [], false⟩ rfl hf
    simpa using h
  · exact findRec_mindepth1_root ⟨sp, bp, mx, some (some 1), e, rT, now, statO, rd⟩ rfl
      (fun q => hne q) fuel ⟨[], [], false⟩ (List.not_mem_nil _)
  · exact (findRec_visited_minDepth_indep sp bp mx e rT now statO rd mnA mnB hwf fuel bp 0
      ⟨[], [], false⟩ ⟨[], [], false⟩ rfl rfl rfl).2.2

/-- Witness for C3 amended, on a one-file tree: `maxDepth = 0` stats only
the root, `minDepth = 1` keeps the search path out of the match list, and
two different `minDepth` bounds produce the same visit log. -/
theorem depth_bounds_amended_witness :
    (findRec ⟨"p", "/p", some (some 0), none, none, fun _ => none, 0,
        (fun _ => some ⟨true, false, 0, 0⟩), (fun _ => [])⟩ 1 "/p" 0
        ⟨[], [], false⟩).visited = ["/p"]
    ∧ "p" ∉ (findRec ⟨"p", "/p", none, some (some 1), none, fun _ => none, 0,
        (fun _ => some ⟨true, false, 0, 0⟩), (fun _ => [])⟩ 1 "/p" 0
        ⟨[], [], false⟩).results
    ∧ (findRec ⟨"p", "/p", none, none, none, fun _ => none, 0,
        (fun _ => some ⟨true, false, 0, 0⟩), (fun _ => [])⟩ 1 "/p" 0
        ⟨[], [], false⟩).visited
        = (findRec ⟨"p", "/p", none, some (some 5), none, fun _ => none, 0,
            (fun _ => some ⟨true, false, 0, 0⟩), (fun _ => [])⟩ 1 "/p" 0
            ⟨[], [], false⟩).visited :=
  depth_bounds_amended (fun _ => some ⟨true, false, 0, 0⟩) (fun _ => []) "p" "/p" none
    (fun _ => none) 0 none none (some (some 5)) 1
    (fun _ h => List.not_mem_nil _ h) rfl (le_refl 1)
